import Mathlib

set_option maxHeartbeats 1000000
set_option maxRecDepth 8000

/-!
Verification of the prompt-template sample: the template data model, the
template parser, the renderer and the startup configuration reads.  The
sample file delegates parsing and rendering to an external SDK, so those
components are modelled from the specification; the startup configuration
reads are embedded from the sample source itself.
-/

/-- Modelled from the spec: a parsed template segment is either literal text
or a reference carrying an optional plugin name and a function-or-variable
name.  (The prompt-template engine is not part of the sample source file.) -/
inductive Segment where
  | literal (text : String)
  | reference (plugin : Option String) (name : String)
deriving DecidableEq

/-- Modelled from the spec: the parse errors of the template parser. -/
inductive ParseError where
  | UnterminatedExpression
  | NestedExpressionNotAllowed
deriving DecidableEq

/-- Drop surrounding whitespace from a token, as the spec requires for the
text enclosed in a delimiter pair. -/
def trimChars (cs : List Char) : List Char :=
  ((cs.dropWhile Char.isWhitespace).reverse.dropWhile Char.isWhitespace).reverse

/-- Split a token at the first dot character, if any. -/
def splitDot : List Char → Option (List Char × List Char)
  | [] => none
  | '.' :: rest => some ([], rest)
  | c :: rest => (splitDot rest).map (fun p => (c :: p.1, p.2))

/-- Modelled from the spec: build a reference from the raw token enclosed in
a delimiter pair.  The token is trimmed of surrounding whitespace and split
at the first dot; with a dot the left part is the plugin name and the right
part the function name, otherwise the whole trimmed token is a bare variable
name. -/
def mkRef (tok : List Char) : Segment :=
  match splitDot (trimChars tok) with
  | some pf => .reference (some (String.mk pf.1)) (String.mk pf.2)
  | none => .reference none (String.mk (trimChars tok))

/-- Raw scanner output: literal text or the raw (untrimmed) token of one
substitution expression. -/
inductive RawSeg where
  | rlit (text : List Char)
  | rref (token : List Char)
deriving DecidableEq

/-- Prepend a character to the scanner output, merging it into a leading
literal segment when there is one. -/
def rawConsLit (c : Char) : List RawSeg → List RawSeg
  | .rlit t :: rest => .rlit (c :: t) :: rest
  | segs => .rlit [c] :: segs

/-- Modelled from the spec: the left-to-right scanner of the template parser.
In text mode (first argument none) it collects literal characters and enters
expression mode at an opening delimiter; in expression mode (first argument
some acc, holding the token characters read so far in reverse) it collects
token characters until the closing delimiter, failing at end of input with
UnterminatedExpression and at a second opening delimiter with
NestedExpressionNotAllowed. -/
def rawParseRun : Option (List Char) → List Char → Except ParseError (List RawSeg)
  | none, [] => .ok []
  | some _, [] => .error .UnterminatedExpression
  | none, '{' :: '{' :: rest => rawParseRun (some []) rest
  | some acc, '}' :: '}' :: rest =>
      (rawParseRun none rest).map (fun segs => .rref acc.reverse :: segs)
  | some _, '{' :: '{' :: _ => .error .NestedExpressionNotAllowed
  | none, c :: rest => (rawParseRun none rest).map (rawConsLit c)
  | some acc, c :: rest => rawParseRun (some (c :: acc)) rest

/-- Interpret one raw scanner segment: literal text stays literal, raw
tokens are trimmed and split into references. -/
def interpSeg : RawSeg → Segment
  | .rlit t => .literal (String.mk t)
  | .rref tok => mkRef tok

/-- Modelled from the spec: parse a template string into its ordered
segment sequence. -/
def parse (s : String) : Except ParseError (List Segment) :=
  (rawParseRun none s.data).map (fun raws => raws.map interpSeg)

/-- Modelled from the spec: the render errors. -/
inductive RenderError where
  | UnknownPluginFunction
  | PluginInvocationError (cause : String)
  | UndefinedVariable
deriving DecidableEq

/-- Modelled from the spec: the undefined-variable policy for bare-name
references missing from the argument set, a configuration option. -/
inductive OnUndefined where
  | empty
  | error
deriving DecidableEq

/-- Modelled from the spec: a registered plugin function is time-independent
here, so it is its result: either its string value or a failure cause. -/
abbrev Callable : Type := Except String String

/-- Modelled from the spec: the plugin registry maps pairs of a plugin name
and a function name to callables. -/
abbrev Registry : Type := List ((String × String) × Callable)

/-- Registry lookup, the resolve operation of the plugin registry. -/
def resolve (reg : Registry) (p f : String) : Option Callable :=
  reg.lookup (p, f)

/-- Modelled from the spec: the argument set maps variable names to string
values. -/
abbrev Arguments : Type := List (String × String)

/-- Modelled from the spec: resolve a single segment.  Literal text is kept
verbatim; a plugin reference is looked up in the registry, failing with
UnknownPluginFunction when absent and propagating a failing invocation as
PluginInvocationError; a bare variable is looked up in the argument set,
with the configured policy applying when it is absent. -/
def renderSeg (reg : Registry) (args : Arguments) (pol : OnUndefined) :
    Segment → Except RenderError String
  | .literal t => .ok t
  | .reference (some p) f =>
      match resolve reg p f with
      | none => .error .UnknownPluginFunction
      | some (.ok s) => .ok s
      | some (.error m) => .error (.PluginInvocationError m)
  | .reference none v =>
      match args.lookup v with
      | some s => .ok s
      | none =>
          match pol with
          | .empty => .ok ""
          | .error => .error .UndefinedVariable

/-- Modelled from the spec: render a segment sequence left to right,
concatenating the resolved segments; any failure aborts the whole render
call with no partial output. -/
def render (reg : Registry) (args : Arguments) (pol : OnUndefined) :
    List Segment → Except RenderError String
  | [] => .ok ""
  | s :: rest =>
      match renderSeg reg args pol s with
      | .error e => .error e
      | .ok h =>
          match render reg args pol rest with
          | .error e => .error e
          | .ok t => .ok (h ++ t)

/-- Environments map variable names to optional values. -/
abbrev Env : Type := String → Option String

/-- The Azure chat completion client, as constructed by the sample with a
service id, deployment name, endpoint and API key. -/
structure AzureChatCompletion where
  service_id : String
  deployment_name : String
  endpoint : String
  api_key : String
deriving DecidableEq

/-- The three required environment variables, in the order the sample reads
them. -/
def requiredVars : List String :=
  ["AZURE_OPENAI_CHAT_DEPLOYMENT_NAME", "AZURE_OPENAI_API_KEY", "AZURE_OPENAI_ENDPOINT"]

/-- The sample's startup: read the three required environment variables in
order, stopping at the first missing one with an error naming it (the
KeyError raised by the environment lookup), and otherwise construct the chat
completion client.  The second component records which variables were read,
in order. -/
def startupT (env : Env) : Except String AzureChatCompletion × List String :=
  match env "AZURE_OPENAI_CHAT_DEPLOYMENT_NAME" with
  | none => (.error "AZURE_OPENAI_CHAT_DEPLOYMENT_NAME",
      ["AZURE_OPENAI_CHAT_DEPLOYMENT_NAME"])
  | some d =>
    match env "AZURE_OPENAI_API_KEY" with
    | none => (.error "AZURE_OPENAI_API_KEY",
        ["AZURE_OPENAI_CHAT_DEPLOYMENT_NAME", "AZURE_OPENAI_API_KEY"])
    | some k =>
      match env "AZURE_OPENAI_ENDPOINT" with
      | none => (.error "AZURE_OPENAI_ENDPOINT", requiredVars)
      | some e => (.ok ⟨"template_language", d, e, k⟩, requiredVars)

/-- The characters a segment contributes when the segment sequence is
re-concatenated, references rewrapped in their delimiters. -/
def segChars : Segment → List Char
  | .literal t => t.data
  | .reference (some p) f => '{' :: '{' :: (p.data ++ '.' :: f.data) ++ ['}', '}']
  | .reference none v => '{' :: '{' :: v.data ++ ['}', '}']

/-- Concatenated characters of a segment sequence. -/
def concatChars : List Segment → List Char
  | [] => []
  | s :: rest => segChars s ++ concatChars rest

/-- Re-concatenate a parsed segment sequence: literal text verbatim, each
reference rewrapped in its original delimiters. -/
def reconstruct (segs : List Segment) : String := String.mk (concatChars segs)

/-- The characters a raw scanner segment stands for in the input. -/
def rawChars : RawSeg → List Char
  | .rlit t => t
  | .rref tok => '{' :: '{' :: tok ++ ['}', '}']

/-- Concatenated characters of a raw scanner output. -/
def concatRaw : List RawSeg → List Char
  | [] => []
  | r :: rest => rawChars r ++ concatRaw rest

/-- Whether every substitution token of the template carries no surrounding
whitespace, that is, each raw token is already trimmed. -/
def tokensTrimmed (s : String) : Bool :=
  match rawParseRun none s.data with
  | .ok raws => raws.all fun r =>
      match r with
      | .rref t => trimChars t == t
      | .rlit _ => true
  | .error _ => false

/-- Whether the two-character pattern a b occurs contiguously in the list. -/
def hasPat2 (a b : Char) : List Char → Bool
  | c :: d :: rest => (c == a && d == b) || hasPat2 a b (d :: rest)
  | _ => false

/-- The segment sequence of a reference-free template: empty for the empty
string, otherwise a single literal covering the whole text. -/
def litSegs : List Char → List Segment
  | [] => []
  | c :: rest => [.literal (String.mk (c :: rest))]

/-- A string containing an opening delimiter with no closing delimiter
anywhere after it before end-of-string. -/
def hasOpenNoClose (s : String) : Prop :=
  ∃ a b, s.data = a ++ '{' :: '{' :: b ∧ hasPat2 '}' '}' b = false

/-- A string in which a second opening delimiter occurs inside an open
substitution expression, before any closing delimiter. -/
def nestedOpen (s : String) : Prop :=
  ∃ a x y, s.data = a ++ '{' :: '{' :: (x ++ '{' :: '{' :: y) ∧
    hasPat2 '}' '}' x = false

/-- Whether a segment is a literal or a plugin-bound reference, so that its
resolution never consults the argument set. -/
def pluginOnly : Segment → Bool
  | .reference none _ => false
  | _ => true

/-- Whether a segment resolves without failure: literals always do, and a
plugin reference does when the registry maps it to a callable that returns
a value. -/
def resolvableOk (reg : Registry) : Segment → Bool
  | .reference (some p) f =>
      match resolve reg p f with
      | some (.ok _) => true
      | _ => false
  | _ => true

/-! Step equations of the scanner. -/

theorem rpr_none_nil : rawParseRun none [] = .ok [] := rfl

theorem rpr_some_nil (acc : List Char) :
    rawParseRun (some acc) [] = .error .UnterminatedExpression := rfl

theorem rpr_none_open (rest : List Char) :
    rawParseRun none ('{' :: '{' :: rest) = rawParseRun (some []) rest := rfl

theorem rpr_some_close (acc rest : List Char) :
    rawParseRun (some acc) ('}' :: '}' :: rest) =
      (rawParseRun none rest).map (fun segs => .rref acc.reverse :: segs) := rfl

theorem rpr_some_open (acc rest : List Char) :
    rawParseRun (some acc) ('{' :: '{' :: rest) =
      .error .NestedExpressionNotAllowed := rfl

theorem rpr_none_one (c : Char) : rawParseRun none [c] = .ok [.rlit [c]] := by
  rw [rawParseRun.eq_def]; split <;> (try simp_all) <;> rfl

theorem rpr_some_one (c : Char) (acc : List Char) :
    rawParseRun (some acc) [c] = .error .UnterminatedExpression := by
  rw [rawParseRun.eq_def]; split <;> (try simp_all) <;> rfl

theorem rpr_none_cons (c d : Char) (rest : List Char) (h : ¬(c = '{' ∧ d = '{')) :
    rawParseRun none (c :: d :: rest) =
      (rawParseRun none (d :: rest)).map (rawConsLit c) := by
  rw [rawParseRun.eq_def]; split <;> (try simp_all) <;> rfl

theorem rpr_some_cons (c d : Char) (acc rest : List Char)
    (h1 : ¬(c = '}' ∧ d = '}')) (h2 : ¬(c = '{' ∧ d = '{')) :
    rawParseRun (some acc) (c :: d :: rest) =
      rawParseRun (some (c :: acc)) (d :: rest) := by
  rw [rawParseRun.eq_def]; split <;> (try simp_all) <;> rfl

/-! Facts about the two-character pattern test. -/

theorem hasPat2_cons2 (a b c d : Char) (rest : List Char) :
    hasPat2 a b (c :: d :: rest) = ((c == a && d == b) || hasPat2 a b (d :: rest)) := rfl

theorem hasPat2_tail_false {a b c : Char} {l : List Char}
    (h : hasPat2 a b (c :: l) = false) : hasPat2 a b l = false := by
  match l with
  | [] => rfl
  | d :: l2 =>
    rw [hasPat2_cons2] at h
    exact (Bool.or_eq_false_iff.mp h).2

theorem hasPat2_head_false {a b c d : Char} {l : List Char}
    (h : hasPat2 a b (c :: d :: l) = false) : ¬(c = a ∧ d = b) := by
  rw [hasPat2_cons2] at h
  have h1 := (Bool.or_eq_false_iff.mp h).1
  intro hcd
  rw [hcd.1, hcd.2] at h1
  simp at h1

theorem hasPat2_cons_true {a b c : Char} {l : List Char}
    (h : hasPat2 a b l = true) : hasPat2 a b (c :: l) = true := by
  match l with
  | [] => simp [hasPat2] at h
  | d :: l2 => rw [hasPat2_cons2, h]; simp

theorem hasPat2_here (a b : Char) (y : List Char) :
    hasPat2 a b (a :: b :: y) = true := by
  rw [hasPat2_cons2]; simp

theorem hasPat2_decomp (a b : Char) (x y : List Char) :
    hasPat2 a b (x ++ a :: b :: y) = true := by
  induction x with
  | nil => exact hasPat2_here a b y
  | cons c x ih => exact hasPat2_cons_true ih

theorem hasPat2_cons_intro {a b c : Char} {l : List Char}
    (h : hasPat2 a b l = false) (hne : ∀ d l2, l = d :: l2 → ¬(c = a ∧ d = b)) :
    hasPat2 a b (c :: l) = false := by
  match l with
  | [] => rfl
  | d :: l2 =>
    rw [hasPat2_cons2, h]
    have hne2 := hne d l2 rfl
    by_cases hc : c = a
    · by_cases hd : d = b
      · exact absurd ⟨hc, hd⟩ hne2
      · simp [hc, hd]
    · simp [hc]

/-! Facts about dot-splitting and whitespace trimming. -/

theorem sd_dot (rest : List Char) : splitDot ('.' :: rest) = some ([], rest) := rfl

theorem sd_cons (c : Char) (rest : List Char) (h : ¬c = '.') :
    splitDot (c :: rest) = (splitDot rest).map (fun p => (c :: p.1, p.2)) := by
  rw [splitDot.eq_def]; split <;> (try simp_all) <;> rfl

theorem splitDot_eq_some :
    ∀ cs p f, splitDot cs = some (p, f) → cs = p ++ '.' :: f ∧ '.' ∉ p := by
  intro cs
  induction cs with
  | nil => intro p f h; exact absurd h (by simp [splitDot])
  | cons c rest ih =>
    intro p f h
    by_cases hc : c = '.'
    · subst hc
      rw [sd_dot] at h
      obtain ⟨rfl, rfl⟩ : p = [] ∧ f = rest := by
        have := Option.some.inj h
        exact ⟨(Prod.mk.injEq _ _ _ _ ▸ this).1.symm, (Prod.mk.injEq _ _ _ _ ▸ this).2.symm⟩
      simp
    · rw [sd_cons c rest hc] at h
      cases h2 : splitDot rest with
      | none => rw [h2] at h; simp at h
      | some pf =>
        obtain ⟨p2, f2⟩ := pf
        rw [h2] at h
        simp only [Option.map_some', Option.some.injEq, Prod.mk.injEq] at h
        obtain ⟨hp, hf⟩ := h
        subst hp; subst hf
        obtain ⟨hr, hnp⟩ := ih p2 f2 h2
        constructor
        · rw [hr]; rfl
        · intro hmem
          rcases List.mem_cons.mp hmem with h3 | h3
          · exact hc h3.symm
          · exact hnp h3

theorem splitDot_append (f : List Char) :
    ∀ p, '.' ∉ p → splitDot (p ++ '.' :: f) = some (p, f) := by
  intro p
  induction p with
  | nil => intro _; exact sd_dot f
  | cons c p2 ih =>
    intro h
    have hc : ¬c = '.' := by
      intro hc; exact h (by simp [hc])
    rw [List.cons_append, sd_cons c _ hc, ih (fun hm => h (List.mem_cons_of_mem c hm))]
    rfl

theorem splitDot_eq_none : ∀ cs, '.' ∉ cs → splitDot cs = none := by
  intro cs
  induction cs with
  | nil => intro _; rfl
  | cons c rest ih =>
    intro h
    have hc : ¬c = '.' := by
      intro hc; exact h (by simp [hc])
    rw [sd_cons c rest hc, ih (fun hm => h (List.mem_cons_of_mem c hm))]
    rfl

theorem dropWhile_ws_append (ws l : List Char)
    (h : ∀ c ∈ ws, Char.isWhitespace c = true) :
    List.dropWhile Char.isWhitespace (ws ++ l) = List.dropWhile Char.isWhitespace l := by
  induction ws with
  | nil => rfl
  | cons w ws ih =>
    rw [List.cons_append, List.dropWhile_cons, h w (List.mem_cons_self w ws)]
    simp only [if_true]
    exact ih (fun c hc => h c (List.mem_cons_of_mem w hc))

theorem trim_pad (ws1 ws2 t : List Char)
    (h1 : ∀ c ∈ ws1, Char.isWhitespace c = true)
    (h2 : ∀ c ∈ ws2, Char.isWhitespace c = true) :
    trimChars (ws1 ++ t ++ ws2) = trimChars t := by
  unfold trimChars
  rw [List.append_assoc, dropWhile_ws_append ws1 (t ++ ws2) h1]
  by_cases h : List.dropWhile Char.isWhitespace t = []
  · rw [List.dropWhile_append, h]
    simp only [List.isEmpty_nil, if_true]
    rw [List.dropWhile_eq_nil_iff.mpr h2]
  · rw [List.dropWhile_append]
    have hne : (List.dropWhile Char.isWhitespace t).isEmpty = false := by
      cases hh : List.dropWhile Char.isWhitespace t with
      | nil => exact absurd hh h
      | cons x xs => rfl
    rw [hne]
    simp only [Bool.false_eq_true, if_false]
    rw [List.reverse_append,
      dropWhile_ws_append ws2.reverse _ (fun c hc => h2 c (List.mem_reverse.mp hc))]

/-! Facts about re-concatenation. -/

theorem concatRaw_rawConsLit (c : Char) (raws : List RawSeg) :
    concatRaw (rawConsLit c raws) = c :: concatRaw raws := by
  match raws with
  | [] => rfl
  | .rlit t :: rest => rfl
  | .rref tok :: rest => rfl

theorem segChars_mkRef (tok : List Char) (h : trimChars tok = tok) :
    segChars (mkRef tok) = '{' :: '{' :: tok ++ ['}', '}'] := by
  unfold mkRef
  cases hsd : splitDot (trimChars tok) with
  | none =>
    simp only [hsd, segChars]
    rw [h]
  | some pf =>
    obtain ⟨p, f⟩ := pf
    obtain ⟨hr, _⟩ := splitDot_eq_some (trimChars tok) p f hsd
    rw [h] at hr
    simp only [hsd, segChars]
    rw [hr]

/-- The raw scan is lossless: re-concatenating a successful scan gives back
exactly the input characters (with the pending open expression restored in
expression mode). -/
theorem recon_raw : ∀ n cs mode raws, cs.length ≤ n → rawParseRun mode cs = .ok raws →
    concatRaw raws = (match mode with
      | none => cs
      | some acc => '{' :: '{' :: (acc.reverse ++ cs)) := by
  intro n
  induction n with
  | zero =>
    intro cs mode raws hlen hok
    have hcs : cs = [] := List.length_eq_zero.mp (Nat.le_zero.mp hlen)
    subst hcs
    cases mode with
    | none => rw [rpr_none_nil] at hok; injection hok with h; subst h; rfl
    | some acc => rw [rpr_some_nil] at hok; exact absurd hok (by simp)
  | succ n ih =>
    intro cs mode raws hlen hok
    rcases cs with _ | ⟨c, _ | ⟨d, rest⟩⟩
    · cases mode with
      | none => rw [rpr_none_nil] at hok; injection hok with h; subst h; rfl
      | some acc => rw [rpr_some_nil] at hok; exact absurd hok (by simp)
    · cases mode with
      | none =>
        rw [rpr_none_one] at hok
        injection hok with h; subst h
        rfl
      | some acc => rw [rpr_some_one] at hok; exact absurd hok (by simp)
    · have hlen2 : (d :: rest).length ≤ n := by simp at hlen ⊢; omega
      cases mode with
      | none =>
        by_cases hop : c = '{' ∧ d = '{'
        · obtain ⟨rfl, rfl⟩ := hop
          rw [rpr_none_open] at hok
          have hr := ih rest (some []) raws (by simp at hlen ⊢; omega) hok
          simpa using hr
        · rw [rpr_none_cons c d rest hop] at hok
          cases hin : rawParseRun none (d :: rest) with
          | error e => rw [hin] at hok; exact absurd hok (by simp [Except.map])
          | ok raws2 =>
            rw [hin] at hok
            simp only [Except.map] at hok
            injection hok with h; subst h
            rw [concatRaw_rawConsLit]
            have hr := ih (d :: rest) none raws2 hlen2 hin
            simpa using hr
      | some acc =>
        by_cases hcl : c = '}' ∧ d = '}'
        · obtain ⟨rfl, rfl⟩ := hcl
          rw [rpr_some_close] at hok
          cases hin : rawParseRun none rest with
          | error e => rw [hin] at hok; exact absurd hok (by simp [Except.map])
          | ok raws2 =>
            rw [hin] at hok
            simp only [Except.map] at hok
            injection hok with h; subst h
            have hr := ih rest none raws2 (by simp at hlen ⊢; omega) hin
            simp only [concatRaw, rawChars, hr]
            simp
        · by_cases hop : c = '{' ∧ d = '{'
          · obtain ⟨rfl, rfl⟩ := hop
            rw [rpr_some_open] at hok
            exact absurd hok (by simp)
          · rw [rpr_some_cons c d acc rest hcl hop] at hok
            have hr := ih (d :: rest) (some (c :: acc)) raws hlen2 hok
            simp only at hr ⊢
            rw [hr]
            simp

theorem concatChars_interp (raws : List RawSeg)
    (h : ∀ t, RawSeg.rref t ∈ raws → trimChars t = t) :
    concatChars (raws.map interpSeg) = concatRaw raws := by
  induction raws with
  | nil => rfl
  | cons r rest ih =>
    simp only [List.map_cons, concatChars, concatRaw]
    rw [ih (fun t ht => h t (List.mem_cons_of_mem r ht))]
    congr 1
    match r with
    | .rlit t => rfl
    | .rref t => exact segChars_mkRef t (h t (List.mem_cons_self _ _))

/-- C6 counterexample: parse succeeds on a template whose substitution token
carries surrounding whitespace, but re-concatenating the resulting segments
yields a different string than the original input, because the token was
trimmed during parsing. -/
theorem parse_roundtrip_counterexample :
    parse "\x7b\x7b a \x7d\x7d" = .ok [.reference none "a"] ∧
    reconstruct [.reference none "a"] = "\x7b\x7ba\x7d\x7d" ∧
    "\x7b\x7ba\x7d\x7d" ≠ "\x7b\x7b a \x7d\x7d" := by
  refine ⟨rfl, rfl, ?_⟩
  decide

/-- C6 (amended): for every input string on which parse succeeds and whose
substitution tokens carry no surrounding whitespace, re-concatenating the
resulting segment sequence, literal text verbatim and each reference
rewrapped in its original delimiters, reconstructs the original input
string. -/
theorem parse_roundtrip_trimmed (s : String) (segs : List Segment)
    (hp : parse s = .ok segs) (ht : tokensTrimmed s = true) :
    reconstruct segs = s := by
  unfold parse at hp
  unfold tokensTrimmed at ht
  cases hr : rawParseRun none s.data with
  | error e => rw [hr] at hp; exact absurd hp (by simp [Except.map])
  | ok raws =>
    rw [hr] at hp ht
    simp only [Except.map] at hp
    injection hp with h; subst h
    have ht2 : raws.all (fun r => match r with
        | .rref t => trimChars t == t
        | .rlit _ => true) = true := ht
    have htoks : ∀ t, RawSeg.rref t ∈ raws → trimChars t = t := by
      intro t hmem
      have := List.all_eq_true.mp ht2 (RawSeg.rref t) hmem
      simpa using this
    unfold reconstruct
    rw [concatChars_interp raws htoks,
      recon_raw s.data.length s.data none raws (le_refl _) hr]

/-- C6 witness for the amended claim, at a concrete template. -/
theorem parse_roundtrip_trimmed_witness :
    reconstruct [.literal "x", .reference (some "time") "date", .literal "y"] =
      "x\x7b\x7btime.date\x7d\x7dy" :=
  parse_roundtrip_trimmed "x\x7b\x7btime.date\x7d\x7dy"
    [.literal "x", .reference (some "time") "date", .literal "y"] rfl rfl

/-- C1: parsing the template consisting of the text Hello, a substitution
expression for the date function of the time plugin, and an exclamation
mark yields exactly the three segments, in order: the literal text, the
plugin-function reference, and the literal exclamation mark. -/
theorem parse_hello_time_date :
    parse "Hello \x7b\x7btime.date\x7d\x7d!" =
      .ok [.literal "Hello ", .reference (some "time") "date", .literal "!"] := rfl

theorem raw_lit (cs : List Char) (h : hasPat2 '{' '{' cs = false) :
    rawParseRun none cs = .ok (match cs with
      | [] => []
      | c :: rest => [.rlit (c :: rest)]) := by
  induction cs with
  | nil => exact rpr_none_nil
  | cons c rest ih =>
    match rest with
    | [] => exact rpr_none_one c
    | d :: rest2 =>
      rw [rpr_none_cons c d rest2 (hasPat2_head_false h)]
      rw [ih (hasPat2_tail_false h)]
      rfl

/-- C7: a template containing no substitution expressions (no opening
delimiter occurs in it) parses to its literal segments, and rendering those
segments returns the template text unchanged, for every registry, argument
set and undefined-variable policy. -/
theorem render_literal_identity (s : String) (h : hasPat2 '{' '{' s.data = false) :
    parse s = .ok (litSegs s.data) ∧
    ∀ reg args pol, render reg args pol (litSegs s.data) = .ok s := by
  obtain ⟨sd⟩ := s
  constructor
  · have hp := raw_lit sd h
    show (rawParseRun none sd).map (fun raws => raws.map interpSeg) = _
    rw [hp]
    cases sd with
    | nil => rfl
    | cons c rest => rfl
  · intro reg args pol
    cases sd with
    | nil => rfl
    | cons c rest =>
      show (Except.ok (String.mk (c :: rest) ++ "") : Except RenderError String) =
        .ok (String.mk (c :: rest))
      rw [String.append_empty]

/-- C7 witness at a concrete reference-free template. -/
theorem render_literal_identity_witness :
    render [] [] .empty (litSegs "Hello there!".data) = .ok "Hello there!" :=
  (render_literal_identity "Hello there!" (by decide)).2 [] [] .empty

/-- C9: the token enclosed in a delimiter pair is trimmed of surrounding
whitespace before being split, so whitespace padding does not affect the
resulting reference; the trimmed token is split at its first dot into a
plugin name and a function name when a dot is present, and otherwise the
whole trimmed token is a bare variable name. -/
theorem token_trim_split (ws1 ws2 tok : List Char)
    (h1 : ∀ c ∈ ws1, Char.isWhitespace c = true)
    (h2 : ∀ c ∈ ws2, Char.isWhitespace c = true) :
    mkRef (ws1 ++ tok ++ ws2) = mkRef tok ∧
    (∀ p f, trimChars tok = p ++ '.' :: f → '.' ∉ p →
      mkRef tok = .reference (some (String.mk p)) (String.mk f)) ∧
    ('.' ∉ trimChars tok → mkRef tok = .reference none (String.mk (trimChars tok))) := by
  refine ⟨?_, ?_, ?_⟩
  · unfold mkRef
    rw [trim_pad ws1 ws2 tok h1 h2]
  · intro p f hsplit hnp
    unfold mkRef
    rw [hsplit, splitDot_append f p hnp]
  · intro hnd
    unfold mkRef
    rw [splitDot_eq_none _ hnd]

/-- C9 witness: whitespace padding around a concrete token is dropped and
the token is split at its dot. -/
theorem token_trim_split_witness :
    mkRef (" ".data ++ "time.date".data ++ " ".data) = mkRef "time.date".data ∧
    mkRef "time.date".data = .reference (some "time") "date" := by
  have h := token_trim_split " ".data " ".data "time.date".data (by decide) (by decide)
  exact ⟨h.1, h.2.1 "time".data "date".data (by decide) (by decide)⟩

/-- Whenever the scan succeeds, a closing delimiter pair occurs after the
current position in expression mode, and after every opening delimiter. -/
theorem closes : ∀ n cs mode raws, cs.length ≤ n → rawParseRun mode cs = .ok raws →
    (∀ acc, mode = some acc → ∃ x y, cs = x ++ '}' :: '}' :: y) ∧
    (∀ a b, cs = a ++ '{' :: '{' :: b → ∃ x y, b = x ++ '}' :: '}' :: y) := by
  intro n
  induction n with
  | zero =>
    intro cs mode raws hlen hok
    have hcs : cs = [] := List.length_eq_zero.mp (Nat.le_zero.mp hlen)
    subst hcs
    constructor
    · intro acc hacc
      subst hacc
      rw [rpr_some_nil] at hok
      exact absurd hok (by simp)
    · intro a b hab
      exact absurd hab.symm (by simp)
  | succ n ih =>
    intro cs mode raws hlen hok
    rcases cs with _ | ⟨c, _ | ⟨d, rest⟩⟩
    · constructor
      · intro acc hacc
        subst hacc
        rw [rpr_some_nil] at hok
        exact absurd hok (by simp)
      · intro a b hab
        exact absurd hab.symm (by simp)
    · constructor
      · intro acc hacc
        subst hacc
        rw [rpr_some_one] at hok
        exact absurd hok (by simp)
      · intro a b hab
        have := congrArg List.length hab
        simp [List.length_append] at this
        omega
    · have hlen1 : rest.length ≤ n := by simp at hlen ⊢; omega
      have hlen2 : (d :: rest).length ≤ n := by simp at hlen ⊢; omega
      cases mode with
      | none =>
        by_cases hop : c = '{' ∧ d = '{'
        · obtain ⟨rfl, rfl⟩ := hop
          rw [rpr_none_open] at hok
          have IH := ih rest (some []) raws hlen1 hok
          have hclose : ∃ x y, rest = x ++ '}' :: '}' :: y := IH.1 [] rfl
          refine ⟨fun acc hacc => absurd hacc (by simp), ?_⟩
          intro a b hab
          rcases a with _ | ⟨a0, a⟩
          · simp only [List.nil_append] at hab
            have hb : rest = b := by
              injection hab with _ h2; injection h2 with _ h3
            obtain ⟨x, y, hxy⟩ := hclose
            exact ⟨x, y, hb ▸ hxy⟩
          · simp only [List.cons_append] at hab
            have hab2 : '{' :: rest = a ++ '{' :: '{' :: b := by
              injection hab with _ h2
            rcases a with _ | ⟨a1, a⟩
            · simp only [List.nil_append] at hab2
              have hr : rest = '{' :: b := by injection hab2 with _ h3
              obtain ⟨x, y, hxy⟩ := hclose
              rw [hr] at hxy
              rcases x with _ | ⟨x0, x⟩
              · simp only [List.nil_append] at hxy
                injection hxy with hx _
                exact absurd hx (by decide)
              · simp only [List.cons_append] at hxy
                injection hxy with _ hx2
                exact ⟨x, y, hx2⟩
            · simp only [List.cons_append] at hab2
              have hr : rest = a ++ '{' :: '{' :: b := by injection hab2 with _ h3
              exact IH.2 a b hr
        · rw [rpr_none_cons c d rest hop] at hok
          cases hin : rawParseRun none (d :: rest) with
          | error e => rw [hin] at hok; exact absurd hok (by simp [Except.map])
          | ok raws2 =>
            have IH := ih (d :: rest) none raws2 hlen2 hin
            refine ⟨fun acc hacc => absurd hacc (by simp), ?_⟩
            intro a b hab
            rcases a with _ | ⟨a0, a⟩
            · simp only [List.nil_append] at hab
              injection hab with h1 h2
              injection h2 with h3 _
              exact absurd ⟨h1, h3⟩ hop
            · simp only [List.cons_append] at hab
              have hr : d :: rest = a ++ '{' :: '{' :: b := by injection hab with _ h2
              exact IH.2 a b hr
      | some acc =>
        by_cases hcl : c = '}' ∧ d = '}'
        · obtain ⟨rfl, rfl⟩ := hcl
          rw [rpr_some_close] at hok
          cases hin : rawParseRun none rest with
          | error e => rw [hin] at hok; exact absurd hok (by simp [Except.map])
          | ok raws2 =>
            have IH := ih rest none raws2 hlen1 hin
            constructor
            · intro acc2 _
              exact ⟨[], rest, rfl⟩
            · intro a b hab
              rcases a with _ | ⟨a0, a⟩
              · simp only [List.nil_append] at hab
                injection hab with h1 _
                exact absurd h1 (by decide)
              · simp only [List.cons_append] at hab
                injection hab with _ h2
                rcases a with _ | ⟨a1, a⟩
                · simp only [List.nil_append] at h2
                  injection h2 with h3 _
                  exact absurd h3 (by decide)
                · simp only [List.cons_append] at h2
                  have hr : rest = a ++ '{' :: '{' :: b := by injection h2 with _ h3
                  exact IH.2 a b hr
        · by_cases hop : c = '{' ∧ d = '{'
          · obtain ⟨rfl, rfl⟩ := hop
            rw [rpr_some_open] at hok
            exact absurd hok (by simp)
          · rw [rpr_some_cons c d acc rest hcl hop] at hok
            have IH := ih (d :: rest) (some (c :: acc)) raws hlen2 hok
            constructor
            · intro acc2 _
              obtain ⟨x, y, hxy⟩ := IH.1 (c :: acc) rfl
              refine ⟨c :: x, y, ?_⟩
              rw [List.cons_append]
              exact congrArg (c :: ·) hxy
            · intro a b hab
              rcases a with _ | ⟨a0, a⟩
              · simp only [List.nil_append] at hab
                injection hab with h1 h2
                injection h2 with h3 _
                exact absurd ⟨h1, h3⟩ hop
              · simp only [List.cons_append] at hab
                have hr : d :: rest = a ++ '{' :: '{' :: b := by injection hab with _ h2
                exact IH.2 a b hr

/-- Expression-mode scan of text containing an opening delimiter with no
closing delimiter before it fails with NestedExpressionNotAllowed. -/
theorem sn : ∀ x acc y, hasPat2 '}' '}' x = false →
    rawParseRun (some acc) (x ++ '{' :: '{' :: y) = .error .NestedExpressionNotAllowed := by
  intro x
  induction x with
  | nil => intro acc y _; rw [List.nil_append]; exact rpr_some_open acc y
  | cons x0 x ih =>
    intro acc y hnc
    rcases x with _ | ⟨x1, x2⟩
    · by_cases hx0 : x0 = '{'
      · subst hx0
        rw [List.cons_append, List.nil_append]
        exact rpr_some_open acc ('{' :: y)
      · rw [List.cons_append, List.nil_append,
          rpr_some_cons x0 '{' acc ('{' :: y) (by simp) (by simp [hx0])]
        exact rpr_some_open (x0 :: acc) y
    · by_cases hop : x0 = '{' ∧ x1 = '{'
      · obtain ⟨rfl, rfl⟩ := hop
        rw [List.cons_append, List.cons_append]
        exact rpr_some_open acc (x2 ++ '{' :: '{' :: y)
      · have hcl : ¬(x0 = '}' ∧ x1 = '}') := hasPat2_head_false hnc
        rw [List.cons_append, List.cons_append,
          rpr_some_cons x0 x1 acc (x2 ++ '{' :: '{' :: y) hcl hop]
        exact ih (x0 :: acc) y (hasPat2_tail_false hnc)

/-- A second opening delimiter inside an open substitution expression makes
the whole scan fail with NestedExpressionNotAllowed, from either mode. -/
theorem nes : ∀ n cs mode, cs.length ≤ n →
    (∃ a x y, cs = a ++ '{' :: '{' :: (x ++ '{' :: '{' :: y) ∧
      hasPat2 '}' '}' x = false) →
    rawParseRun mode cs = .error .NestedExpressionNotAllowed := by
  intro n
  induction n with
  | zero =>
    intro cs mode hlen hcond
    obtain ⟨a, x, y, hab, _⟩ := hcond
    have hcs : cs = [] := List.length_eq_zero.mp (Nat.le_zero.mp hlen)
    subst hcs
    have := congrArg List.length hab
    simp [List.length_append] at this
    omega
  | succ n ih =>
    intro cs mode hlen hcond
    obtain ⟨a, x, y, hab, hnc⟩ := hcond
    rcases cs with _ | ⟨c, _ | ⟨d, rest⟩⟩
    · have := congrArg List.length hab
      simp [List.length_append] at this
      omega
    · have := congrArg List.length hab
      simp [List.length_append] at this
      omega
    · have hlen1 : rest.length ≤ n := by simp at hlen ⊢; omega
      have hlen2 : (d :: rest).length ≤ n := by simp at hlen ⊢; omega
      cases mode with
      | none =>
        by_cases hop : c = '{' ∧ d = '{'
        · obtain ⟨rfl, rfl⟩ := hop
          rw [rpr_none_open]
          rcases a with _ | ⟨a0, a⟩
          · simp only [List.nil_append] at hab
            have hr : rest = x ++ '{' :: '{' :: y := by
              injection hab with _ h2; injection h2 with _ h3
            rw [hr]
            exact sn x [] y hnc
          · simp only [List.cons_append] at hab
            rcases a with _ | ⟨a1, a2⟩
            · simp only [List.nil_append] at hab
              have hr : rest = '{' :: (x ++ '{' :: '{' :: y) := by
                injection hab with _ h2; injection h2 with _ h3
              rw [hr]
              have hnc2 : hasPat2 '}' '}' ('{' :: x) = false :=
                hasPat2_cons_intro hnc (fun d2 l2 _ hcd => absurd hcd.1 (by decide))
              exact sn ('{' :: x) [] y hnc2
            · simp only [List.cons_append] at hab
              have hr : rest = a2 ++ '{' :: '{' :: (x ++ '{' :: '{' :: y) := by
                injection hab with _ h2; injection h2 with _ h3
              exact ih rest (some []) hlen1 ⟨a2, x, y, hr, hnc⟩
        · rw [rpr_none_cons c d rest hop]
          rcases a with _ | ⟨a0, a⟩
          · simp only [List.nil_append] at hab
            injection hab with h1 h2
            injection h2 with h3 _
            exact absurd ⟨h1, h3⟩ hop
          · simp only [List.cons_append] at hab
            have hr : d :: rest = a ++ '{' :: '{' :: (x ++ '{' :: '{' :: y) := by
              injection hab with _ h2
            rw [ih (d :: rest) none hlen2 ⟨a, x, y, hr, hnc⟩]
            rfl
      | some acc =>
        by_cases hop : c = '{' ∧ d = '{'
        · obtain ⟨rfl, rfl⟩ := hop
          exact rpr_some_open acc rest
        · by_cases hcl : c = '}' ∧ d = '}'
          · obtain ⟨rfl, rfl⟩ := hcl
            rw [rpr_some_close]
            rcases a with _ | ⟨a0, a⟩
            · simp only [List.nil_append] at hab
              injection hab with h1 _
              exact absurd h1 (by decide)
            · simp only [List.cons_append] at hab
              injection hab with _ h2
              rcases a with _ | ⟨a1, a2⟩
              · simp only [List.nil_append] at h2
                injection h2 with h3 _
                exact absurd h3 (by decide)
              · simp only [List.cons_append] at h2
                have hr : rest = a2 ++ '{' :: '{' :: (x ++ '{' :: '{' :: y) := by
                  injection h2 with _ h3
                rw [ih rest none hlen1 ⟨a2, x, y, hr, hnc⟩]
                rfl
          · rw [rpr_some_cons c d acc rest hcl hop]
            rcases a with _ | ⟨a0, a⟩
            · simp only [List.nil_append] at hab
              injection hab with h1 h2
              injection h2 with h3 _
              exact absurd ⟨h1, h3⟩ hop
            · simp only [List.cons_append] at hab
              have hr : d :: rest = a ++ '{' :: '{' :: (x ++ '{' :: '{' :: y) := by
                injection hab with _ h2
              exact ih (d :: rest) (some (c :: acc)) hlen2 ⟨a, x, y, hr, hnc⟩

/-- C5: for every input string in which a second opening delimiter occurs
inside an open substitution expression, before its closing delimiter, parse
fails with NestedExpressionNotAllowed. -/
theorem parse_nested_fails (s : String) (h : nestedOpen s) :
    parse s = .error .NestedExpressionNotAllowed := by
  obtain ⟨a, x, y, hab, hnc⟩ := h
  unfold parse
  rw [nes s.data.length s.data none (le_refl _) ⟨a, x, y, hab, hnc⟩]
  rfl

/-- C5 witness at the concrete template from the spec. -/
theorem parse_nested_fails_witness :
    parse "\x7b\x7ba\x7b\x7bb\x7d\x7d\x7d\x7d" =
      .error .NestedExpressionNotAllowed :=
  parse_nested_fails _ ⟨[], ['a'], "b\x7d\x7d\x7d\x7d".data, rfl, rfl⟩

/-- C4 counterexample: a string containing an opening delimiter with no
closing delimiter anywhere after it, on which parse nevertheless fails with
NestedExpressionNotAllowed rather than UnterminatedExpression, because a
second opening delimiter follows inside the open expression. -/
theorem parse_unterminated_counterexample :
    hasOpenNoClose "\x7b\x7ba\x7b\x7bb" ∧
    parse "\x7b\x7ba\x7b\x7bb" = .error .NestedExpressionNotAllowed ∧
    ParseError.NestedExpressionNotAllowed ≠ ParseError.UnterminatedExpression := by
  refine ⟨⟨[], "a\x7b\x7bb".data, rfl, rfl⟩, rfl, by decide⟩

/-- Whenever the scan fails with NestedExpressionNotAllowed, the input
contains a second opening delimiter inside an open substitution expression:
in text mode a full nested decomposition exists, and in expression mode
either the nested opening lies in the current expression or the current
expression closes first and the nested decomposition lies in the rest. -/
theorem nes_inv : ∀ n cs mode, cs.length ≤ n →
    rawParseRun mode cs = .error .NestedExpressionNotAllowed →
    (mode = none →
      ∃ a x y, cs = a ++ '{' :: '{' :: (x ++ '{' :: '{' :: y) ∧
        hasPat2 '}' '}' x = false) ∧
    (∀ acc, mode = some acc →
      (∃ x y, cs = x ++ '{' :: '{' :: y ∧ hasPat2 '}' '}' x = false) ∨
      (∃ t rest2, cs = t ++ '}' :: '}' :: rest2 ∧ hasPat2 '}' '}' t = false ∧
        ∃ a x y, rest2 = a ++ '{' :: '{' :: (x ++ '{' :: '{' :: y) ∧
          hasPat2 '}' '}' x = false)) := by
  intro n
  induction n with
  | zero =>
    intro cs mode hlen herr
    have hcs : cs = [] := List.length_eq_zero.mp (Nat.le_zero.mp hlen)
    subst hcs
    cases mode with
    | none => rw [rpr_none_nil] at herr; exact absurd herr (by simp)
    | some acc => rw [rpr_some_nil] at herr; exact absurd herr (by simp)
  | succ n ih =>
    intro cs mode hlen herr
    rcases cs with _ | ⟨c, _ | ⟨d, rest⟩⟩
    · cases mode with
      | none => rw [rpr_none_nil] at herr; exact absurd herr (by simp)
      | some acc => rw [rpr_some_nil] at herr; exact absurd herr (by simp)
    · cases mode with
      | none => rw [rpr_none_one] at herr; exact absurd herr (by simp)
      | some acc => rw [rpr_some_one] at herr; exact absurd herr (by simp)
    · have hlen1 : rest.length ≤ n := by simp at hlen ⊢; omega
      have hlen2 : (d :: rest).length ≤ n := by simp at hlen ⊢; omega
      cases mode with
      | none =>
        refine ⟨fun _ => ?_, fun acc hacc => absurd hacc (by simp)⟩
        by_cases hop : c = '{' ∧ d = '{'
        · obtain ⟨rfl, rfl⟩ := hop
          rw [rpr_none_open] at herr
          have IH := (ih rest (some []) hlen1 herr).2 [] rfl
          rcases IH with ⟨x, y, hxy, hnx⟩ | ⟨t, rest2, ht, hnt, a, x, y, hr2, hnx⟩
          · exact ⟨[], x, y, by rw [hxy]; rfl, hnx⟩
          · refine ⟨'{' :: '{' :: t ++ '}' :: '}' :: a, x, y, ?_, hnx⟩
            rw [ht, hr2]
            simp [List.append_assoc]
        · rw [rpr_none_cons c d rest hop] at herr
          cases hin : rawParseRun none (d :: rest) with
          | ok raws2 => rw [hin] at herr; exact absurd herr (by simp [Except.map])
          | error e2 =>
            rw [hin] at herr
            have he2 : e2 = .NestedExpressionNotAllowed := by
              simpa [Except.map] using herr
            subst he2
            obtain ⟨a, x, y, hr, hnx⟩ := (ih (d :: rest) none hlen2 hin).1 rfl
            exact ⟨c :: a, x, y, by rw [List.cons_append, hr], hnx⟩
      | some acc =>
        refine ⟨fun hmode => absurd hmode (by simp), fun acc2 _ => ?_⟩
        by_cases hop : c = '{' ∧ d = '{'
        · obtain ⟨rfl, rfl⟩ := hop
          exact Or.inl ⟨[], rest, rfl, rfl⟩
        · by_cases hcl : c = '}' ∧ d = '}'
          · obtain ⟨rfl, rfl⟩ := hcl
            rw [rpr_some_close] at herr
            cases hin : rawParseRun none rest with
            | ok raws2 => rw [hin] at herr; exact absurd herr (by simp [Except.map])
            | error e2 =>
              rw [hin] at herr
              have he2 : e2 = .NestedExpressionNotAllowed := by
                simpa [Except.map] using herr
              subst he2
              obtain ⟨a, x, y, hr, hnx⟩ := (ih rest none hlen1 hin).1 rfl
              exact Or.inr ⟨[], rest, rfl, rfl, a, x, y, hr, hnx⟩
          · rw [rpr_some_cons c d acc rest hcl hop] at herr
            have IH := (ih (d :: rest) (some (c :: acc)) hlen2 herr).2 (c :: acc) rfl
            rcases IH with ⟨x, y, hxy, hnx⟩ | ⟨t, rest2, ht, hnt, a, x, y, hr2, hnx⟩
            · refine Or.inl ⟨c :: x, y, by rw [List.cons_append, hxy], ?_⟩
              refine hasPat2_cons_intro hnx ?_
              intro d2 l2 hx hcd
              rw [hx] at hxy
              have hd : d = d2 := by
                rw [List.cons_append] at hxy
                injection hxy with h1 _
              exact hcl ⟨hcd.1, hd ▸ hcd.2⟩
            · refine Or.inr ⟨c :: t, rest2, by rw [List.cons_append, ht], ?_,
                a, x, y, hr2, hnx⟩
              refine hasPat2_cons_intro hnt ?_
              intro d2 l2 htx hcd
              rw [htx] at ht
              have hd : d = d2 := by
                rw [List.cons_append] at ht
                injection ht with h1 _
              exact hcl ⟨hcd.1, hd ▸ hcd.2⟩

/-- C4 (amended): an input string containing an opening delimiter with no
closing delimiter after it never parses to a segment sequence: parse fails
with a parse error, and the error is UnterminatedExpression unless a second
opening delimiter occurs inside an open substitution expression, in which
case it is NestedExpressionNotAllowed. -/
theorem parse_unterminated_amended (s : String) :
    (hasOpenNoClose s → ∃ e, parse s = .error e) ∧
    (hasOpenNoClose s → ¬nestedOpen s → parse s = .error .UnterminatedExpression) := by
  have hfail : hasOpenNoClose s → ∀ raws, ¬rawParseRun none s.data = .ok raws := by
    intro h raws hp
    obtain ⟨a, b, hab, hnc⟩ := h
    have hcl := (closes s.data.length s.data none raws (le_refl _) hp).2 a b hab
    obtain ⟨x, y, hxy⟩ := hcl
    rw [hxy, hasPat2_decomp '}' '}' x y] at hnc
    simp at hnc
  constructor
  · intro h
    cases hp : rawParseRun none s.data with
    | error e => exact ⟨e, by unfold parse; rw [hp]; rfl⟩
    | ok raws => exact absurd hp (hfail h raws)
  · intro h hn
    cases hp : rawParseRun none s.data with
    | ok raws => exact absurd hp (hfail h raws)
    | error e =>
      cases e with
      | UnterminatedExpression => unfold parse; rw [hp]; rfl
      | NestedExpressionNotAllowed =>
        have hno := (nes_inv s.data.length s.data none (le_refl _) hp).1 rfl
        exact absurd hno hn

/-- C4 witness for the amended claim at the concrete template from the
spec, whose unterminated expression contains no second opening delimiter. -/
theorem parse_unterminated_amended_witness :
    parse "\x7b\x7bunterminated" = .error .UnterminatedExpression :=
  (parse_unterminated_amended "\x7b\x7bunterminated").2
    ⟨[], "unterminated".data, rfl, rfl⟩
    (fun hno => by
      have h : (Except.error ParseError.UnterminatedExpression :
          Except ParseError (List RawSeg)) = .error .NestedExpressionNotAllowed :=
        nes "\x7b\x7bunterminated".data.length "\x7b\x7bunterminated".data none
          (le_refl _) hno
      exact ParseError.noConfusion (Except.error.inj h))

theorem render_mem_unknown_fails : ∀ segs reg args pol p f,
    Segment.reference (some p) f ∈ segs → resolve reg p f = none →
    ∃ e, render reg args pol segs = .error e := by
  intro segs
  induction segs with
  | nil => intro reg args pol p f hmem _; exact absurd hmem (by simp)
  | cons sg rest ih =>
    intro reg args pol p f hmem hres
    rcases List.mem_cons.mp hmem with heq | hmemtail
    · subst heq
      refine ⟨.UnknownPluginFunction, ?_⟩
      simp only [render, renderSeg, hres]
    · obtain ⟨e, he⟩ := ih reg args pol p f hmemtail hres
      cases hsg : renderSeg reg args pol sg with
      | error e2 => exact ⟨e2, by simp only [render, hsg]⟩
      | ok o => exact ⟨e, by simp only [render, hsg, he]⟩

theorem render_front_ok_unknown : ∀ pre reg args pol p f post,
    resolve reg p f = none →
    (∀ sg ∈ pre, ∃ o, renderSeg reg args pol sg = .ok o) →
    render reg args pol (pre ++ Segment.reference (some p) f :: post) =
      .error .UnknownPluginFunction := by
  intro pre
  induction pre with
  | nil =>
    intro reg args pol p f post hres _
    simp only [List.nil_append, render, renderSeg, hres]
  | cons sg pre ih =>
    intro reg args pol p f post hres hpre
    obtain ⟨o, ho⟩ := hpre sg (List.mem_cons_self _ _)
    simp only [List.cons_append, render, ho, List.append_eq]
    rw [ih reg args pol p f post hres (fun x hx => hpre x (List.mem_cons_of_mem sg hx))]

/-- C2 (amended): for every segment sequence containing a plugin reference
absent from the registry, render fails and returns no partial output; the
error is exactly UnknownPluginFunction whenever every segment before the
unresolvable reference resolves successfully (an earlier failing segment
may report its own error instead). -/
theorem render_unknown_plugin_fails (reg : Registry) (args : Arguments)
    (pol : OnUndefined) (segs : List Segment) (p f : String)
    (hmem : Segment.reference (some p) f ∈ segs) (hres : resolve reg p f = none) :
    (∃ e, render reg args pol segs = .error e) ∧
    (∀ pre post, segs = pre ++ Segment.reference (some p) f :: post →
      (∀ sg ∈ pre, ∃ o, renderSeg reg args pol sg = .ok o) →
      render reg args pol segs = .error .UnknownPluginFunction) := by
  refine ⟨render_mem_unknown_fails segs reg args pol p f hmem hres, ?_⟩
  intro pre post hsegs hpre
  rw [hsegs]
  exact render_front_ok_unknown pre reg args pol p f post hres hpre

/-- C2 witness: against a registry lacking the bogus function of the time
plugin, rendering a literal followed by that reference fails with
UnknownPluginFunction. -/
theorem render_unknown_plugin_fails_witness :
    render [(("time", "date"), Except.ok "Friday")] [] .empty
      [Segment.literal "x", Segment.reference (some "time") "bogus"] =
      .error .UnknownPluginFunction :=
  (render_unknown_plugin_fails [(("time", "date"), Except.ok "Friday")] [] .empty
      [Segment.literal "x", Segment.reference (some "time") "bogus"] "time" "bogus"
      (by decide) rfl).2 [Segment.literal "x"] [] rfl
      (by
        intro sg hsg
        rw [List.mem_singleton] at hsg
        subst hsg
        exact ⟨"x", rfl⟩)

/-- C2 counterexample: a segment sequence containing a plugin reference
absent from the registry on which render fails with PluginInvocationError
rather than UnknownPluginFunction, because an earlier segment's plugin
function fails first. -/
theorem render_unknown_masked_counterexample :
    Segment.reference (some "time") "bogus" ∈
      [Segment.reference (some "p") "g", Segment.reference (some "time") "bogus"] ∧
    resolve [(("p", "g"), Except.error "boom")] "time" "bogus" = none ∧
    render [(("p", "g"), Except.error "boom")] [] .empty
      [Segment.reference (some "p") "g", Segment.reference (some "time") "bogus"] =
      .error (.PluginInvocationError "boom") ∧
    RenderError.PluginInvocationError "boom" ≠ RenderError.UnknownPluginFunction := by
  refine ⟨by decide, rfl, rfl, by decide⟩

theorem render_append : ∀ pre reg args pol suf,
    render reg args pol (pre ++ suf) =
      (match render reg args pol pre, render reg args pol suf with
        | .ok h, .ok t => .ok (h ++ t)
        | .error e, _ => .error e
        | .ok _, .error e => .error e) := by
  intro pre
  induction pre with
  | nil =>
    intro reg args pol suf
    simp only [List.nil_append, render]
    cases hs : render reg args pol suf with
    | error e => rfl
    | ok t => rfl
  | cons sg pre ih =>
    intro reg args pol suf
    simp only [List.cons_append, render, List.append_eq]
    cases hsg : renderSeg reg args pol sg with
    | error e => rfl
    | ok o =>
      rw [ih reg args pol suf]
      cases h1 : render reg args pol pre with
      | error e => rfl
      | ok h =>
        cases h2 : render reg args pol suf with
        | error e => rfl
        | ok t => simp only [String.append_assoc]

/-- C8: rendering is a pure, deterministic function of the parsed segment
sequence, the registry, the argument set and the policy: two successful
renders of the same parsed template agree, and rendering splits over every
left-to-right decomposition of the segments, each part rendered
independently of the other part's result and concatenated in order. -/
theorem render_deterministic_pure (T : String) (segs : List Segment)
    (hp : parse T = .ok segs) (reg : Registry) (args : Arguments)
    (pol : OnUndefined) :
    (∀ o1 o2, render reg args pol segs = .ok o1 →
      render reg args pol segs = .ok o2 → o1 = o2) ∧
    (∀ pre suf, segs = pre ++ suf →
      render reg args pol segs =
        (match render reg args pol pre, render reg args pol suf with
          | .ok h, .ok t => .ok (h ++ t)
          | .error e, _ => .error e
          | .ok _, .error e => .error e)) := by
  refine ⟨?_, ?_⟩
  · intro o1 o2 h1 h2
    rw [h1] at h2
    exact Except.ok.inj h2
  · intro pre suf hsegs
    rw [hsegs]
    exact render_append pre reg args pol suf

/-- C8 witness: two renders of a concrete parsed template against the same
registry and arguments produce the same output. -/
theorem render_deterministic_pure_witness : ("Today: Fri" : String) = "Today: Fri" :=
  (render_deterministic_pure "Today: \x7b\x7btime.date\x7d\x7d"
      [Segment.literal "Today: ", Segment.reference (some "time") "date"] rfl
      [(("time", "date"), Except.ok "Fri")] [] .empty).1 "Today: Fri" "Today: Fri" rfl rfl

theorem render_args_irrelevant : ∀ segs reg args pol pol2,
    (∀ sg ∈ segs, pluginOnly sg = true) →
    render reg args pol segs = render reg [] pol2 segs := by
  intro segs
  induction segs with
  | nil => intro reg args pol pol2 _; rfl
  | cons sg rest ih =>
    intro reg args pol pol2 h
    have hsg : renderSeg reg args pol sg = renderSeg reg [] pol2 sg := by
      have hp := h sg (List.mem_cons_self _ _)
      match sg with
      | .literal t => rfl
      | .reference (some p) f => rfl
      | .reference none v => simp [pluginOnly] at hp
    simp only [render]
    rw [hsg, ih reg args pol pol2 (fun x hx => h x (List.mem_cons_of_mem sg hx))]

theorem render_resolvable_ok : ∀ segs reg pol,
    (∀ sg ∈ segs, pluginOnly sg = true) →
    (∀ sg ∈ segs, resolvableOk reg sg = true) →
    ∃ out, render reg [] pol segs = .ok out := by
  intro segs
  induction segs with
  | nil => intro reg pol _ _; exact ⟨"", rfl⟩
  | cons sg rest ih =>
    intro reg pol hplug hres
    obtain ⟨out, hout⟩ := ih reg pol (fun x hx => hplug x (List.mem_cons_of_mem sg hx))
      (fun x hx => hres x (List.mem_cons_of_mem sg hx))
    have hsg : ∃ o, renderSeg reg [] pol sg = .ok o := by
      have h1 := hplug sg (List.mem_cons_self _ _)
      have h2 := hres sg (List.mem_cons_self _ _)
      match sg with
      | .literal t => exact ⟨t, rfl⟩
      | .reference none v => simp [pluginOnly] at h1
      | .reference (some p) f =>
        cases hr : resolve reg p f with
        | none => simp [resolvableOk, hr] at h2
        | some c =>
          cases c with
          | error m => simp [resolvableOk, hr] at h2
          | ok s => exact ⟨s, by simp only [renderSeg, hr]⟩
    obtain ⟨o, ho⟩ := hsg
    exact ⟨o ++ out, by simp only [render, ho, hout]⟩

/-- C10: when every segment of a template is a literal or a plugin-bound
reference, rendering never consults the argument set or the
undefined-variable policy, so rendering with a null or absent argument set
behaves like rendering with any other; and when moreover every plugin
reference resolves in the registry to a callable returning a value,
rendering with the empty argument set succeeds. -/
theorem render_null_arguments (reg : Registry) (args : Arguments)
    (pol pol2 : OnUndefined) (segs : List Segment)
    (h : ∀ sg ∈ segs, pluginOnly sg = true) :
    render reg args pol segs = render reg [] pol2 segs ∧
    ((∀ sg ∈ segs, resolvableOk reg sg = true) →
      ∃ out, render reg [] pol2 segs = .ok out) :=
  ⟨render_args_irrelevant segs reg args pol pol2 h,
   fun hres => render_resolvable_ok segs reg pol2 h hres⟩

/-- C10 witness: the sample-like template with only the date and time
functions of the time plugin renders successfully with the empty argument
set, even under the strict undefined-variable policy. -/
theorem render_null_arguments_witness :
    ∃ out, render [(("time", "date"), Except.ok "2026-10-12"),
        (("time", "time"), Except.ok "09:00")] [] .error
      [Segment.literal "Today is: ", Segment.reference (some "time") "date",
        Segment.literal " and now it is ", Segment.reference (some "time") "time"] =
      .ok out :=
  (render_null_arguments [(("time", "date"), Except.ok "2026-10-12"),
      (("time", "time"), Except.ok "09:00")] [("name", "World")] .empty .error
      [Segment.literal "Today is: ", Segment.reference (some "time") "date",
        Segment.literal " and now it is ", Segment.reference (some "time") "time"]
      (by decide)).2 (by decide)

/-- C3: the sample startup reads the three required environment variables in
order, each at most once (exactly once each when all are present), and when
one is missing it stops immediately with an error naming the first missing
variable, before the chat completion client is constructed. -/
theorem startup_env_reads (env : Env) :
    (startupT env).2.Nodup ∧
    ((∃ v, v ∈ requiredVars ∧ env v = none) →
      ∃ v, v ∈ requiredVars ∧ env v = none ∧ (startupT env).1 = .error v) ∧
    ((∀ v, v ∈ requiredVars → env v ≠ none) →
      (startupT env).2 = requiredVars ∧ ∃ c, (startupT env).1 = .ok c) := by
  cases h1 : env "AZURE_OPENAI_CHAT_DEPLOYMENT_NAME" with
  | none =>
    have hs : startupT env = (.error "AZURE_OPENAI_CHAT_DEPLOYMENT_NAME",
        ["AZURE_OPENAI_CHAT_DEPLOYMENT_NAME"]) := by
      unfold startupT; rw [h1]
    refine ⟨by rw [hs]; decide, ?_, ?_⟩
    · intro _
      exact ⟨"AZURE_OPENAI_CHAT_DEPLOYMENT_NAME", by simp [requiredVars], h1, by rw [hs]⟩
    · intro hall
      exact absurd h1 (hall _ (by simp [requiredVars]))
  | some d =>
    cases h2 : env "AZURE_OPENAI_API_KEY" with
    | none =>
      have hs : startupT env = (.error "AZURE_OPENAI_API_KEY",
          ["AZURE_OPENAI_CHAT_DEPLOYMENT_NAME", "AZURE_OPENAI_API_KEY"]) := by
        unfold startupT; rw [h1, h2]
      refine ⟨by rw [hs]; decide, ?_, ?_⟩
      · intro _
        exact ⟨"AZURE_OPENAI_API_KEY", by simp [requiredVars], h2, by rw [hs]⟩
      · intro hall
        exact absurd h2 (hall _ (by simp [requiredVars]))
    | some k =>
      cases h3 : env "AZURE_OPENAI_ENDPOINT" with
      | none =>
        have hs : startupT env = (.error "AZURE_OPENAI_ENDPOINT", requiredVars) := by
          unfold startupT; rw [h1, h2, h3]
        refine ⟨by rw [hs]; decide, ?_, ?_⟩
        · intro _
          exact ⟨"AZURE_OPENAI_ENDPOINT", by simp [requiredVars], h3, by rw [hs]⟩
        · intro hall
          exact absurd h3 (hall _ (by simp [requiredVars]))
      | some e2 =>
        have hs : startupT env = (.ok ⟨"template_language", d, e2, k⟩, requiredVars) := by
          unfold startupT; rw [h1, h2, h3]
        refine ⟨by rw [hs]; show requiredVars.Nodup; decide, ?_, ?_⟩
        · rintro ⟨v, hv, hnone⟩
          simp [requiredVars] at hv
          rcases hv with rfl | rfl | rfl
          · rw [h1] at hnone; exact absurd hnone (by simp)
          · rw [h2] at hnone; exact absurd hnone (by simp)
          · rw [h3] at hnone; exact absurd hnone (by simp)
        · intro _
          exact ⟨by rw [hs], ⟨_, by rw [hs]⟩⟩

/-- C3 witness: with only the deployment name present, startup fails fast
naming the API key variable. -/
theorem startup_env_reads_witness :
    ∃ v, v ∈ requiredVars ∧
      (fun n => if n = "AZURE_OPENAI_CHAT_DEPLOYMENT_NAME"
        then some "dep" else none) v = none ∧
      (startupT (fun n => if n = "AZURE_OPENAI_CHAT_DEPLOYMENT_NAME"
        then some "dep" else none)).1 = .error v :=
  (startup_env_reads _).2.1 ⟨"AZURE_OPENAI_API_KEY", by simp [requiredVars], by decide⟩
